import Mathlib

/-!
Verification of the repo-map pipeline of `germ` (`repomap.go`).

The Go code is shallowly embedded as follows.

* Go `map`s are modelled as association lists (`List (key × value)`) updated
  in place; Go map lookup (`m[k]`, with the zero value on a miss) is modelled
  by `lookupL` / `getQ`.
* Go `float64` arithmetic is modelled by exact rational arithmetic (`ℚ`).
  `math.Sqrt` is kept abstract: every function that uses it takes a parameter
  `sqrtFn : Nat → ℚ` standing for `fun n => math.Sqrt (float64 n)`; all
  theorems below hold for an arbitrary `sqrtFn`.
* External collaborators (tree-sitter tag extraction, `os.ReadFile`,
  the grep-ast renderer, `gonum`'s `network.PageRank`, `filepath.Rel`)
  are modelled as oracle parameters, since their code is not part of this
  repository.
* Strings are Lean `String`s; where the Go code splits/joins on `"\n"` we
  work on `String.data` (`List Char`).  Go's `len` counts bytes; for the
  ASCII strings used in the concrete evaluations below byte and character
  counts coincide.
-/

namespace Germ

/-- Mirrors the Go constant `TagKindDef = "def"`. -/
def TagKindDef : String := "def"

/-- Mirrors the Go constant `TagKindRef = "ref"`. -/
def TagKindRef : String := "ref"

/-- Mirrors the Go struct `Tag` (repomap.go): a tag extracted from a source
file, with the relative file name, absolute path, 0-based line, identifier
text and kind (`"def"` or `"ref"`). -/
structure Tag where
  FileName : String
  FilePath : String
  Line : Nat
  Name : String
  Kind : String
deriving DecidableEq, Repr

/-- Mirrors the Go struct `tagKey` (repomap.go): the key (relative file,
symbol) of the `definitions` map. -/
structure TagKeyT where
  fname : String
  symbol : String
deriving DecidableEq, Repr

/-- Association-list lookup, modelling Go map indexing `m[k]` (`none` models
a missing key, i.e. the zero value of the element type). -/
def lookupL {κ α : Type} [DecidableEq κ] : List (κ × α) → κ → Option α
  | [], _ => none
  | (k, v) :: rest, s => if s = k then some v else lookupL rest s

/-- Mirrors the `TagKindDef` branch of `buildReferenceMaps`:
`defines[t.Name][rel] = struct{}{}` — insert `f` into the file set of `sym`
(the set is kept as a duplicate-free list in first-insertion order). -/
def addDef : List (String × List String) → String → String → List (String × List String)
  | [], sym, f => [(sym, [f])]
  | (s, fs) :: rest, sym, f =>
    if s = sym then (s, if f ∈ fs then fs else fs ++ [f]) :: rest
    else (s, fs) :: addDef rest sym f

/-- Mirrors the `TagKindRef` branch of `buildReferenceMaps`:
`references[t.Name] = append(references[t.Name], rel)` — append `f` to the
reference list of `sym` (duplicates preserved). -/
def addRef : List (String × List String) → String → String → List (String × List String)
  | [], sym, f => [(sym, [f])]
  | (s, fs) :: rest, sym, f =>
    if s = sym then (s, fs ++ [f]) :: rest
    else (s, fs) :: addRef rest sym f

/-- Mirrors `definitions[k] = append(definitions[k], t)` in
`buildReferenceMaps`. -/
def addDefinition : List (TagKeyT × List Tag) → TagKeyT → Tag → List (TagKeyT × List Tag)
  | [], k, t => [(k, [t])]
  | (k', ts) :: rest, k, t =>
    if k' = k then (k', ts ++ [t]) :: rest
    else (k', ts) :: addDefinition rest k t

/-- The four reference maps returned by `buildReferenceMaps` (repomap.go). -/
structure RefMaps where
  defines : List (String × List String)
  references : List (String × List String)
  definitions : List (TagKeyT × List Tag)
  identifiers : List String
deriving Repr

/-- One iteration of the tag-ingestion loop of `buildReferenceMaps` (the
`switch t.Kind` body), parameterised by `relFn`, the model of
`r.GetRelFname` (`filepath.Rel(r.Root, ·)`, external path arithmetic).
The state is `(defines, references, definitions)`. -/
def ingestStep (relFn : String → String)
    (acc : List (String × List String) × List (String × List String) × List (TagKeyT × List Tag))
    (t : Tag) :
    List (String × List String) × List (String × List String) × List (TagKeyT × List Tag) :=
  let rel := relFn t.FilePath
  if t.Kind = TagKindDef then
    (addDef acc.1 t.Name rel, acc.2.1, addDefinition acc.2.2 ⟨rel, t.Name⟩ t)
  else if t.Kind = TagKindRef then
    (acc.1, addRef acc.2.1 t.Name rel, acc.2.2)
  else acc

/-- The tag-ingestion loop of `buildReferenceMaps` over `allTags`. -/
def ingestTags (relFn : String → String) (allTags : List Tag) :
    List (String × List String) × List (String × List String) × List (TagKeyT × List Tag) :=
  allTags.foldl (ingestStep relFn) ([], [], [])

/-- Mirrors the fallback loop of `buildReferenceMaps`: if `references` is
empty, populate it from `defines` (`for sym, defFiles := range defines { for
df := range defFiles { references[sym] = append(references[sym], df) } }`). -/
def fallbackFromDefines (defines : List (String × List String)) :
    List (String × List String) :=
  defines.foldl (fun acc p => p.2.foldl (fun a f => addRef a p.1 f) acc) []

/-- Mirrors `buildReferenceMaps` (repomap.go): fold the tags into the four
maps, apply the empty-`references` fallback, then compute `identifiers` as
the keys of `defines` that are also keys of `references`. -/
def buildReferenceMaps (relFn : String → String) (allTags : List Tag) : RefMaps :=
  let ingested := ingestTags relFn allTags
  let defines := ingested.1
  let references0 := ingested.2.1
  let definitions := ingested.2.2
  let references := if references0.isEmpty then fallbackFromDefines defines else references0
  let identifiers := (defines.map Prod.fst).filter (fun s => (lookupL references s).isSome)
  ⟨defines, references, definitions, identifiers⟩

/-! ### Association-list lemmas used throughout -/

/-- A key that occurs among the keys of an association list has a `some`
lookup. -/
theorem isSome_lookupL_of_mem_keys {α : Type} {d : List (String × α)} {s : String}
    (h : s ∈ d.map Prod.fst) : (lookupL d s).isSome = true := by
  induction d with
  | nil => simp at h
  | cons p rest ih =>
    obtain ⟨k, v⟩ := p
    by_cases hk : s = k
    · simp [lookupL, hk]
    · simp only [List.map_cons, List.mem_cons] at h
      rcases h with h | h
      · exact absurd h hk
      · simpa [lookupL, hk] using ih h

/-- A successful lookup returns a value stored in the list. -/
theorem mem_of_lookupL_eq_some {α : Type} {d : List (String × α)} {s : String} {v : α}
    (h : lookupL d s = some v) : (s, v) ∈ d := by
  induction d with
  | nil => simp [lookupL] at h
  | cons p rest ih =>
    obtain ⟨k, w⟩ := p
    by_cases hk : s = k
    · subst hk
      simp [lookupL] at h
      simp [h]
    · simp [lookupL, hk] at h
      exact List.mem_cons_of_mem _ (ih h)

/-- Lookup distributes over append when the first list misses the key. -/
theorem lookupL_append_of_none {α : Type} {l₁ : List (String × α)} {s : String}
    (h : lookupL l₁ s = none) (l₂ : List (String × α)) :
    lookupL (l₁ ++ l₂) s = lookupL l₂ s := by
  induction l₁ with
  | nil => simp
  | cons p rest ih =>
    obtain ⟨k, v⟩ := p
    by_cases hk : s = k
    · simp [lookupL, hk] at h
    · simp only [lookupL, hk, if_false, List.cons_append] at h ⊢
      exact ih h

/-- A key absent from the key list has a `none` lookup. -/
theorem lookupL_eq_none_of_not_mem_keys {α : Type} {d : List (String × α)} {s : String}
    (h : s ∉ d.map Prod.fst) : lookupL d s = none := by
  induction d with
  | nil => rfl
  | cons p rest ih =>
    obtain ⟨k, v⟩ := p
    simp only [List.map_cons, List.mem_cons] at h
    push_neg at h
    simp [lookupL, h.1, ih h.2]

/-! ### Behaviour of `addRef` and the fallback loop -/

/-- `addRef` on a fresh key appends a singleton entry at the end. -/
theorem addRef_of_not_mem {acc : List (String × List String)} {sym : String}
    (h : lookupL acc sym = none) (f : String) :
    addRef acc sym f = acc ++ [(sym, [f])] := by
  induction acc with
  | nil => simp [addRef]
  | cons p rest ih =>
    obtain ⟨k, v⟩ := p
    have hk : ¬ sym = k := by
      intro hkk; simp [lookupL, hkk] at h
    have hk' : ¬ k = sym := fun hkk => hk hkk.symm
    simp only [lookupL, hk, if_false] at h
    simp [addRef, hk', ih h]

/-- `addRef` on the key of the trailing entry extends that entry. -/
theorem addRef_append_last {acc : List (String × List String)} {sym : String}
    (h : lookupL acc sym = none) (fs : List String) (f : String) :
    addRef (acc ++ [(sym, fs)]) sym f = acc ++ [(sym, fs ++ [f])] := by
  induction acc with
  | nil => simp [addRef]
  | cons p rest ih =>
    obtain ⟨k, v⟩ := p
    have hk : ¬ sym = k := by
      intro hkk; simp [lookupL, hkk] at h
    have hk' : ¬ k = sym := fun hkk => hk hkk.symm
    simp only [lookupL, hk, if_false] at h
    simp [addRef, hk', ih h]

/-- Folding `addRef` over a file list with a fresh trailing entry grows
exactly that entry. -/
theorem foldl_addRef_fresh {acc : List (String × List String)} {sym : String}
    (h : lookupL acc sym = none) :
    ∀ (fs pre : List String),
      fs.foldl (fun a f => addRef a sym f) (acc ++ [(sym, pre)]) = acc ++ [(sym, pre ++ fs)]
  | [], pre => by simp
  | f :: fs, pre => by
    simp only [List.foldl_cons]
    rw [addRef_append_last h pre f, foldl_addRef_fresh h fs (pre ++ [f])]
    simp

/-- Folding `addRef` over a non-empty file list on a fresh key appends a
single entry holding exactly that list. -/
theorem foldl_addRef_of_ne_nil {acc : List (String × List String)} {sym : String}
    (h : lookupL acc sym = none) {fs : List String} (hfs : fs ≠ []) :
    fs.foldl (fun a f => addRef a sym f) acc = acc ++ [(sym, fs)] := by
  cases fs with
  | nil => exact absurd rfl hfs
  | cons f fs =>
    simp only [List.foldl_cons]
    rw [addRef_of_not_mem h f]
    simpa using foldl_addRef_fresh h fs [f]

/-- The fallback loop over a well-formed `defines` map reproduces it entry
by entry. -/
theorem fallback_go (d : List (String × List String)) :
    ∀ (acc : List (String × List String)),
      (∀ p ∈ d, lookupL acc p.1 = none) →
      (d.map Prod.fst).Nodup →
      (∀ p ∈ d, p.2 ≠ []) →
      d.foldl (fun acc p => p.2.foldl (fun a f => addRef a p.1 f) acc) acc = acc ++ d := by
  induction d with
  | nil => intro acc _ _ _; simp
  | cons p rest ih =>
    intro acc hnone hnd hne
    obtain ⟨s, fs⟩ := p
    simp only [List.foldl_cons]
    rw [foldl_addRef_of_ne_nil (hnone ⟨s, fs⟩ (by simp)) (hne ⟨s, fs⟩ (by simp))]
    simp only [List.map_cons, List.nodup_cons] at hnd
    rw [ih (acc ++ [(s, fs)]) ?_ hnd.2 ?_]
    · simp
    · intro q hq
      have hq1 : q.1 ≠ s := by
        intro hqs
        exact hnd.1 (hqs ▸ List.mem_map_of_mem Prod.fst hq)
      rw [lookupL_append_of_none (hnone q (List.mem_cons_of_mem _ hq))]
      simp [lookupL, hq1]
    · intro q hq
      exact hne q (List.mem_cons_of_mem _ hq)

/-- `fallbackFromDefines` is the identity on well-formed `defines` maps. -/
theorem fallbackFromDefines_eq_self {d : List (String × List String)}
    (hnd : (d.map Prod.fst).Nodup) (hne : ∀ p ∈ d, p.2 ≠ []) :
    fallbackFromDefines d = d := by
  have h := fallback_go d [] (fun p _ => rfl) hnd hne
  simpa [fallbackFromDefines] using h

/-! ### Invariants of the ingestion loop -/

/-- Well-formedness of the `defines` map as built by `buildReferenceMaps`:
keys are distinct (it is a Go map) and each value is a non-empty
duplicate-free file set. -/
def DefinesWF (d : List (String × List String)) : Prop :=
  (d.map Prod.fst).Nodup ∧ ∀ p ∈ d, p.2 ≠ [] ∧ p.2.Nodup

/-- `addDef` either keeps the key list or appends the new key. -/
theorem keys_addDef (d : List (String × List String)) (sym f : String) :
    (addDef d sym f).map Prod.fst =
      if sym ∈ d.map Prod.fst then d.map Prod.fst else d.map Prod.fst ++ [sym] := by
  induction d with
  | nil => simp [addDef]
  | cons p rest ih =>
    obtain ⟨s, fs⟩ := p
    by_cases h : s = sym
    · subst h; simp [addDef]
    · have h' : ¬ sym = s := fun hh => h hh.symm
      by_cases hm : sym ∈ rest.map Prod.fst <;>
        simp [addDef, h, h', hm, ih]

/-- `addDef` preserves well-formedness of `defines`. -/
theorem addDef_wf {d : List (String × List String)} (hd : DefinesWF d) (sym f : String) :
    DefinesWF (addDef d sym f) := by
  induction d with
  | nil =>
    refine ⟨by simp [addDef], ?_⟩
    intro p hp
    simp only [addDef, List.mem_singleton] at hp
    subst hp
    simp
  | cons q rest ih =>
    obtain ⟨s, fs⟩ := q
    obtain ⟨hnd, hval⟩ := hd
    simp only [List.map_cons, List.nodup_cons] at hnd
    have hrest : DefinesWF rest :=
      ⟨hnd.2, fun p hp => hval p (List.mem_cons_of_mem _ hp)⟩
    by_cases h : s = sym
    · subst h
      have hstep : addDef ((s, fs) :: rest) s f =
          (s, if f ∈ fs then fs else fs ++ [f]) :: rest := by
        simp [addDef]
      rw [hstep]
      constructor
      · simpa [List.nodup_cons] using hnd
      · intro p hp
        rcases List.mem_cons.mp hp with hp | hp
        · subst hp
          obtain ⟨hne, hnodup⟩ := hval (s, fs) (List.mem_cons_self _ _)
          by_cases hf : f ∈ fs
          · simpa [hf] using ⟨hne, hnodup⟩
          · refine ⟨by simp [hf], ?_⟩
            simp [hf, List.nodup_append, hnodup]
        · exact hval p (List.mem_cons_of_mem _ hp)
    · have h' : ¬ sym = s := fun hh => h hh.symm
      obtain ⟨ihnd, ihval⟩ := ih hrest
      constructor
      · simp only [addDef, h, if_false, List.map_cons, List.nodup_cons]
        refine ⟨?_, ihnd⟩
        rw [keys_addDef]
        by_cases hm : sym ∈ rest.map Prod.fst
        · simpa [hm] using hnd.1
        · simp [hm, hnd.1, h]
      · intro p hp
        simp only [addDef, h, if_false, List.mem_cons] at hp
        rcases hp with hp | hp
        · subst hp
          exact hval (s, fs) (List.mem_cons_self _ _)
        · exact ihval p hp

/-- The ingestion fold preserves well-formedness of the `defines`
component. -/
theorem foldl_ingestStep_defines_wf (relFn : String → String) :
    ∀ (ts : List Tag)
      (st : List (String × List String) × List (String × List String) ×
            List (TagKeyT × List Tag)),
      DefinesWF st.1 → DefinesWF (List.foldl (ingestStep relFn) st ts).1
  | [], _, h => h
  | t :: ts, st, h => by
    simp only [List.foldl_cons]
    apply foldl_ingestStep_defines_wf relFn ts
    unfold ingestStep
    by_cases h1 : t.Kind = TagKindDef
    · simpa [h1] using addDef_wf h _ _
    · by_cases h2 : t.Kind = TagKindRef <;>
        · simp only [TagKindDef, TagKindRef] at h1 h2 ⊢
          simp [h1, h2, h]

/-- When no `Ref` tag is ingested the `references` component stays empty. -/
theorem foldl_ingestStep_refs_nil (relFn : String → String) :
    ∀ (ts : List Tag)
      (st : List (String × List String) × List (String × List String) ×
            List (TagKeyT × List Tag)),
      (∀ t ∈ ts, t.Kind ≠ TagKindRef) → st.2.1 = [] →
      (List.foldl (ingestStep relFn) st ts).2.1 = []
  | [], _, _, h0 => h0
  | t :: ts, st, hk, h0 => by
    simp only [List.foldl_cons]
    apply foldl_ingestStep_refs_nil relFn ts
    · intro u hu; exact hk u (List.mem_cons_of_mem _ hu)
    · have ht : t.Kind ≠ TagKindRef := hk t (List.mem_cons_self _ _)
      unfold ingestStep
      by_cases h1 : t.Kind = TagKindDef <;> simp [h1, ht, h0]

/-- The `defines` map of `buildReferenceMaps` is well-formed. -/
theorem buildReferenceMaps_defines_wf (relFn : String → String) (allTags : List Tag) :
    DefinesWF (buildReferenceMaps relFn allTags).defines :=
  foldl_ingestStep_defines_wf relFn allTags ([], [], [])
    ⟨List.nodup_nil, by intro p hp; simp at hp⟩

/-- Claim C5: after `buildReferenceMaps` returns, every element of
`identifiers` is a key of both `defines` and `references`; and if no `Ref`
tag was ingested, `references` equals `defines` pointwise — the same keys,
and for each symbol the reference list holds each defining file exactly
once. -/
theorem buildReferenceMaps_identifier_law (relFn : String → String) (allTags : List Tag) :
    (∀ s ∈ (buildReferenceMaps relFn allTags).identifiers,
        (lookupL (buildReferenceMaps relFn allTags).defines s).isSome = true ∧
        (lookupL (buildReferenceMaps relFn allTags).references s).isSome = true)
    ∧ ((∀ t ∈ allTags, t.Kind ≠ TagKindRef) →
        (∀ s, (lookupL (buildReferenceMaps relFn allTags).references s).isSome =
              (lookupL (buildReferenceMaps relFn allTags).defines s).isSome)
        ∧ ∀ s fs, lookupL (buildReferenceMaps relFn allTags).defines s = some fs →
            ∃ rs, lookupL (buildReferenceMaps relFn allTags).references s = some rs ∧
              ∀ f, rs.count f = if f ∈ fs then 1 else 0) := by
  constructor
  · intro s hs
    have hs' := hs
    simp only [buildReferenceMaps, List.mem_filter] at hs'
    exact ⟨isSome_lookupL_of_mem_keys hs'.1, hs'.2⟩
  · intro hnoref
    have hwf := buildReferenceMaps_defines_wf relFn allTags
    have hrefs0 : (ingestTags relFn allTags).2.1 = [] :=
      foldl_ingestStep_refs_nil relFn allTags ([], [], []) hnoref rfl
    have hrefs : (buildReferenceMaps relFn allTags).references =
        (buildReferenceMaps relFn allTags).defines := by
      simp only [buildReferenceMaps, hrefs0, List.isEmpty_nil, if_true]
      exact fallbackFromDefines_eq_self hwf.1 (fun p hp => (hwf.2 p hp).1)
    constructor
    · intro s; rw [hrefs]
    · intro s fs hdef
      refine ⟨fs, by rw [hrefs]; exact hdef, ?_⟩
      intro f
      have hmem := mem_of_lookupL_eq_some hdef
      have hnodup : fs.Nodup := (hwf.2 _ hmem).2
      by_cases hf : f ∈ fs
      · simp [hf, List.count_eq_one_of_mem hnodup hf]
      · simp [hf, List.count_eq_zero_of_not_mem hf]

/-- Witness for C5: a concrete two-tag, definition-only input. -/
theorem buildReferenceMaps_identifier_law_witness :
    (∀ t ∈ [Tag.mk "a.go" "a.go" 0 "foo" "def", Tag.mk "b.go" "b.go" 3 "foo" "def"],
        t.Kind ≠ TagKindRef)
    ∧ ((∀ s ∈ (buildReferenceMaps id
          [Tag.mk "a.go" "a.go" 0 "foo" "def", Tag.mk "b.go" "b.go" 3 "foo" "def"]).identifiers,
        (lookupL (buildReferenceMaps id
          [Tag.mk "a.go" "a.go" 0 "foo" "def", Tag.mk "b.go" "b.go" 3 "foo" "def"]).defines
            s).isSome = true ∧
        (lookupL (buildReferenceMaps id
          [Tag.mk "a.go" "a.go" 0 "foo" "def", Tag.mk "b.go" "b.go" 3 "foo" "def"]).references
            s).isSome = true)) := by
  refine ⟨by decide, ?_⟩
  exact (buildReferenceMaps_identifier_law id
    [Tag.mk "a.go" "a.go" 0 "foo" "def", Tag.mk "b.go" "b.go" 3 "foo" "def"]).1

/-! ### Rank distribution (`distributeRank`, repomap.go) -/

/-- Mirrors the Go struct `EdgeRank` (repomap.go): the key `(dst, symbol)`
of the distributed-rank map. -/
structure EdgeRank where
  dst : String
  symbol : String
deriving DecidableEq, Repr

/-- Models `strings.HasPrefix(sym, "_")` on the character list. -/
def underscorePrefixed (s : String) : Bool :=
  match s.data with
  | '_' :: _ => true
  | _ => false

/-- The identifier multiplier `mul` computed by the `switch` in
`distributeRank` and in `buildFileGraph` (the floats `10.0`, `0.1`, `1.0`
modelled as exact rationals). -/
def mulOf (mentionedIdents : String → Bool) (sym : String) : ℚ :=
  if mentionedIdents sym then 10
  else if underscorePrefixed sym then 1 / 10
  else 1

/-- `edgeRanks[k] += v`, modelling the Go map `+=` update (which inserts
the zero value on a miss). -/
def bump : List (EdgeRank × ℚ) → EdgeRank → ℚ → List (EdgeRank × ℚ)
  | [], k, v => [(k, v)]
  | (k', v') :: rest, k, v =>
    if k' = k then (k', v' + v) :: rest else (k', v') :: bump rest k v

/-- Go map read `edgeRanks[k]` with the float zero value on a miss. -/
def getQ : List (EdgeRank × ℚ) → EdgeRank → ℚ
  | [], _ => 0
  | (k, v) :: rest, k' => if k' = k then v else getQ rest k'

/-- The innermost loop of `distributeRank`: for each `defFile` add
`portion` to `edgeRanks[(defFile, symbol)]`. -/
def addPortion (sym : String) (portion : ℚ) (defFiles : List String)
    (m : List (EdgeRank × ℚ)) : List (EdgeRank × ℚ) :=
  defFiles.foldl (fun acc d => bump acc ⟨d, sym⟩ portion) m

/-- The per-reference-occurrence body of `distributeRank`: compute
`w = mul·sqrt(len refMap)`, `sumW = len(defFiles)·w`, `srcRank`, skip when
`sumW == 0`, else add `srcRank·(w/sumW)` for each defining file.  `rank`
models `pr[nodeByFile[refFile].ID()]`, the PageRank score of the
referencing file. -/
def refStep (sqrtFn : Nat → ℚ) (rank : String → ℚ) (sym : String) (nrefs : Nat)
    (mul : ℚ) (defFiles : List String) (m : List (EdgeRank × ℚ)) (refFile : String) :
    List (EdgeRank × ℚ) :=
  let w := mul * sqrtFn nrefs
  let sumW := (defFiles.length : ℚ) * w
  let srcRank := rank refFile
  if sumW = 0 then m
  else addPortion sym (srcRank * (w / sumW)) defFiles m

/-- The per-symbol body of `distributeRank` (`for symbol, refMap := range
references`): skip when `defines[symbol]` is nil, else loop over the
reference occurrences. -/
def symStep (sqrtFn : Nat → ℚ) (rank : String → ℚ)
    (defines : List (String × List String)) (mentionedIdents : String → Bool)
    (m : List (EdgeRank × ℚ)) (p : String × List String) : List (EdgeRank × ℚ) :=
  match lookupL defines p.1 with
  | none => m
  | some defFiles =>
    p.2.foldl (refStep sqrtFn rank p.1 p.2.length (mulOf mentionedIdents p.1) defFiles) m

/-- Mirrors `distributeRank` (repomap.go): distribute each referencing
file's PageRank across the defining files of every referenced symbol,
producing the `(defFile, symbol) → rank` map. -/
def distributeRank (sqrtFn : Nat → ℚ) (rank : String → ℚ)
    (defines references : List (String × List String))
    (mentionedIdents : String → Bool) : List (EdgeRank × ℚ) :=
  references.foldl (symStep sqrtFn rank defines mentionedIdents) []

/-- The amount a single `refStep` adds at key `k`. -/
def refAmount (sqrtFn : Nat → ℚ) (rank : String → ℚ) (sym : String) (nrefs : Nat)
    (mul : ℚ) (defFiles : List String) (refFile : String) (k : EdgeRank) : ℚ :=
  let w := mul * sqrtFn nrefs
  let sumW := (defFiles.length : ℚ) * w
  if sumW = 0 then 0
  else if k.symbol = sym then
    (defFiles.count k.dst : ℚ) * (rank refFile * (w / sumW))
  else 0

/-- The amount a single `symStep` adds at key `k`. -/
def symAmount (sqrtFn : Nat → ℚ) (rank : String → ℚ)
    (defines : List (String × List String)) (mentionedIdents : String → Bool)
    (p : String × List String) (k : EdgeRank) : ℚ :=
  match lookupL defines p.1 with
  | none => 0
  | some defFiles =>
    (p.2.map (fun r =>
      refAmount sqrtFn rank p.1 p.2.length (mulOf mentionedIdents p.1) defFiles r k)).sum

theorem getQ_bump (m : List (EdgeRank × ℚ)) (k : EdgeRank) (v : ℚ) (k' : EdgeRank) :
    getQ (bump m k v) k' = getQ m k' + if k' = k then v else 0 := by
  induction m with
  | nil => by_cases h : k' = k <;> simp [bump, getQ, h]
  | cons p rest ih =>
    obtain ⟨k0, v0⟩ := p
    by_cases h0 : k0 = k
    · subst h0
      by_cases h1 : k' = k0 <;> simp [bump, getQ, h1]
    · by_cases h1 : k' = k0
      · subst h1
        have : ¬ k' = k := h0
        simp [bump, getQ, h0, this]
      · simp [bump, getQ, h0, h1, ih]

theorem getQ_addPortion (sym : String) (c : ℚ) (defFiles : List String)
    (m : List (EdgeRank × ℚ)) (k : EdgeRank) :
    getQ (addPortion sym c defFiles m) k =
      getQ m k + if k.symbol = sym then (defFiles.count k.dst : ℚ) * c else 0 := by
  induction defFiles generalizing m with
  | nil => simp [addPortion]
  | cons d D ih =>
    have hstep : addPortion sym c (d :: D) m =
        addPortion sym c D (bump m ⟨d, sym⟩ c) := rfl
    rw [hstep, ih, getQ_bump]
    by_cases hsym : k.symbol = sym
    · by_cases hdst : k.dst = d
      · have hk : k = ⟨d, sym⟩ := by
          cases k; simp_all
        subst hk
        simp [List.count_cons]
        ring
      · have hk : ¬ k = ⟨d, sym⟩ := by
          intro hkk; cases k; simp_all
        simp [hsym, hk, List.count_cons, hdst]
    · have hk : ¬ k = ⟨d, sym⟩ := by
        intro hkk; cases k; simp_all
      simp [hsym, hk]

theorem getQ_refStep (sqrtFn : Nat → ℚ) (rank : String → ℚ) (sym : String) (nrefs : Nat)
    (mul : ℚ) (defFiles : List String) (m : List (EdgeRank × ℚ)) (r : String)
    (k : EdgeRank) :
    getQ (refStep sqrtFn rank sym nrefs mul defFiles m r) k =
      getQ m k + refAmount sqrtFn rank sym nrefs mul defFiles r k := by
  unfold refStep refAmount
  by_cases h : ((defFiles.length : ℚ) * (mul * sqrtFn nrefs)) = 0
  · simp [h]
  · simp only [h, if_false]
    rw [getQ_addPortion]

theorem getQ_foldl_refStep (sqrtFn : Nat → ℚ) (rank : String → ℚ) (sym : String)
    (nrefs : Nat) (mul : ℚ) (defFiles : List String) (k : EdgeRank) :
    ∀ (R : List String) (m : List (EdgeRank × ℚ)),
      getQ (R.foldl (refStep sqrtFn rank sym nrefs mul defFiles) m) k =
        getQ m k +
          (R.map (fun r => refAmount sqrtFn rank sym nrefs mul defFiles r k)).sum
  | [], m => by simp
  | r :: R, m => by
    simp only [List.foldl_cons, List.map_cons, List.sum_cons]
    rw [getQ_foldl_refStep sqrtFn rank sym nrefs mul defFiles k R, getQ_refStep]
    ring

theorem getQ_symStep (sqrtFn : Nat → ℚ) (rank : String → ℚ)
    (defines : List (String × List String)) (mentionedIdents : String → Bool)
    (m : List (EdgeRank × ℚ)) (p : String × List String) (k : EdgeRank) :
    getQ (symStep sqrtFn rank defines mentionedIdents m p) k =
      getQ m k + symAmount sqrtFn rank defines mentionedIdents p k := by
  unfold symStep symAmount
  cases h : lookupL defines p.1 with
  | none => simp
  | some defFiles => rw [getQ_foldl_refStep]

theorem getQ_distributeRank (sqrtFn : Nat → ℚ) (rank : String → ℚ)
    (defines references : List (String × List String))
    (mentionedIdents : String → Bool) (k : EdgeRank) :
    getQ (distributeRank sqrtFn rank defines references mentionedIdents) k =
      (references.map (fun p => symAmount sqrtFn rank defines mentionedIdents p k)).sum := by
  unfold distributeRank
  suffices h : ∀ (refs : List (String × List String)) (m : List (EdgeRank × ℚ)),
      getQ (refs.foldl (symStep sqrtFn rank defines mentionedIdents) m) k =
        getQ m k +
          (refs.map (fun p => symAmount sqrtFn rank defines mentionedIdents p k)).sum by
    simpa [getQ] using h references []
  intro refs
  induction refs with
  | nil => intro m; simp
  | cons p rest ih =>
    intro m
    simp only [List.foldl_cons, List.map_cons, List.sum_cons]
    rw [ih, getQ_symStep]
    ring

/-- A `symStep` entry for another symbol contributes nothing at `k`. -/
theorem symAmount_of_ne (sqrtFn : Nat → ℚ) (rank : String → ℚ)
    (defines : List (String × List String)) (mentionedIdents : String → Bool)
    (p : String × List String) (k : EdgeRank) (h : ¬ k.symbol = p.1) :
    symAmount sqrtFn rank defines mentionedIdents p k = 0 := by
  unfold symAmount
  cases hl : lookupL defines p.1 with
  | none => rfl
  | some defFiles =>
    apply List.sum_eq_zero
    intro x hx
    simp only [List.mem_map] at hx
    obtain ⟨r, _, hr⟩ := hx
    subst hr
    unfold refAmount
    by_cases h0 : ((defFiles.length : ℚ) * (mulOf mentionedIdents p.1 * sqrtFn p.2.length)) = 0 <;>
      simp [h0, h]

/-- With distinct reference keys, only the entry of `k.symbol` contributes
to the distributed rank at `k`. -/
theorem sum_symAmount_isolate (sqrtFn : Nat → ℚ) (rank : String → ℚ)
    (defines : List (String × List String)) (mentionedIdents : String → Bool)
    (s : String) (R : List String) (k : EdgeRank) (hks : k.symbol = s) :
    ∀ (refs : List (String × List String)),
      (refs.map Prod.fst).Nodup → (s, R) ∈ refs →
      (refs.map (fun p => symAmount sqrtFn rank defines mentionedIdents p k)).sum =
        symAmount sqrtFn rank defines mentionedIdents (s, R) k := by
  intro refs
  induction refs with
  | nil => intro _ h; simp at h
  | cons p rest ih =>
    intro hnd hmem
    simp only [List.map_cons, List.nodup_cons] at hnd
    simp only [List.map_cons, List.sum_cons]
    rcases List.mem_cons.mp hmem with hp | hp
    · subst hp
      have hzero : ∀ q ∈ rest,
          symAmount sqrtFn rank defines mentionedIdents q k = 0 := by
        intro q hq
        apply symAmount_of_ne
        rw [hks]
        intro hqs
        apply hnd.1
        have hmapq : q.1 ∈ rest.map Prod.fst := List.mem_map_of_mem Prod.fst hq
        rwa [← hqs] at hmapq
      have hsum : (rest.map
          (fun p => symAmount sqrtFn rank defines mentionedIdents p k)).sum = 0 := by
        apply List.sum_eq_zero
        intro x hx
        simp only [List.mem_map] at hx
        obtain ⟨q, hq, hqx⟩ := hx
        rw [← hqx]; exact hzero q hq
      rw [hsum]; ring
    · have hps : ¬ k.symbol = p.1 := by
        rw [hks]
        intro hsp
        exact hnd.1 (hsp ▸ List.mem_map_of_mem Prod.fst hp)
      rw [symAmount_of_ne sqrtFn rank defines mentionedIdents p k hps,
        ih hnd.2 hp]
      ring

/-- `mulOf` never vanishes: the three float cases are `10.0`, `0.1`, `1.0`. -/
theorem mulOf_ne_zero (mentionedIdents : String → Bool) (sym : String) :
    mulOf mentionedIdents sym ≠ 0 := by
  unfold mulOf
  by_cases h1 : mentionedIdents sym = true
  · simp [h1]
  · by_cases h2 : underscorePrefixed sym = true <;> simp [h1, h2]

theorem div_self_mul (w d : ℚ) (hw : w ≠ 0) : w / (d * w) = 1 / d := by
  rw [mul_comm, div_mul_eq_div_div, div_self hw]

/-- `refAmount` at the key whose symbol matches, written without the inner
symbol test. -/
theorem refAmount_self (sqrtFn : Nat → ℚ) (rank : String → ℚ) (sym : String)
    (nrefs : Nat) (mul : ℚ) (defFiles : List String) (r f : String) :
    refAmount sqrtFn rank sym nrefs mul defFiles r ⟨f, sym⟩ =
      if ((defFiles.length : ℚ) * (mul * sqrtFn nrefs)) = 0 then 0
      else (defFiles.count f : ℚ) *
        (rank r * ((mul * sqrtFn nrefs) / ((defFiles.length : ℚ) * (mul * sqrtFn nrefs)))) := by
  unfold refAmount
  by_cases h : ((defFiles.length : ℚ) * (mul * sqrtFn nrefs)) = 0 <;> simp [h]

/-- Claim C3: two symbols with the same defining-file set and the same
reference list, of which only the first is mentioned, receive the same
distributed rank at every defining file — the multiplier cancels in
`w/sumW` — hence `edge_rank[(f, s1)] ≥ edge_rank[(f, s2)]`. -/
theorem distributeRank_mention_boost
    (sqrtFn : Nat → ℚ) (rank : String → ℚ)
    (defines references : List (String × List String))
    (mentionedIdents : String → Bool)
    (s1 s2 : String) (R D1 D2 : List String) (f : String)
    (hkeys : (references.map Prod.fst).Nodup)
    (h1 : (s1, R) ∈ references) (h2 : (s2, R) ∈ references)
    (hd1 : lookupL defines s1 = some D1) (hd2 : lookupL defines s2 = some D2)
    (hperm : D1.Perm D2)
    (hm1 : mentionedIdents s1 = true) (hm2 : mentionedIdents s2 = false)
    (hf : f ∈ D1) :
    getQ (distributeRank sqrtFn rank defines references mentionedIdents) ⟨f, s1⟩ ≥
      getQ (distributeRank sqrtFn rank defines references mentionedIdents) ⟨f, s2⟩ := by
  have e1 := getQ_distributeRank sqrtFn rank defines references mentionedIdents ⟨f, s1⟩
  have e2 := getQ_distributeRank sqrtFn rank defines references mentionedIdents ⟨f, s2⟩
  rw [e1, e2,
    sum_symAmount_isolate sqrtFn rank defines mentionedIdents s1 R ⟨f, s1⟩ rfl
      references hkeys h1,
    sum_symAmount_isolate sqrtFn rank defines mentionedIdents s2 R ⟨f, s2⟩ rfl
      references hkeys h2]
  apply ge_of_eq
  unfold symAmount
  simp only [hd1, hd2]
  congr 1
  apply List.map_congr_left
  intro r _
  rw [refAmount_self, refAmount_self]
  have hlen : (D1.length : ℚ) = (D2.length : ℚ) := by
    exact_mod_cast hperm.length_eq
  have hcount : ((D1.count f : ℚ)) = ((D2.count f : ℚ)) := by
    exact_mod_cast hperm.count_eq f
  by_cases hdq0 : ((D1.length : ℚ)) * sqrtFn R.length = 0
  · have hz1 : ((D1.length : ℚ)) * (mulOf mentionedIdents s1 * sqrtFn R.length) = 0 := by
      rw [show ((D1.length : ℚ)) * (mulOf mentionedIdents s1 * sqrtFn R.length) =
        mulOf mentionedIdents s1 * (((D1.length : ℚ)) * sqrtFn R.length) by ring, hdq0,
        mul_zero]
    have hz2 : ((D2.length : ℚ)) * (mulOf mentionedIdents s2 * sqrtFn R.length) = 0 := by
      rw [← hlen,
        show ((D1.length : ℚ)) * (mulOf mentionedIdents s2 * sqrtFn R.length) =
          mulOf mentionedIdents s2 * (((D1.length : ℚ)) * sqrtFn R.length) by ring, hdq0,
        mul_zero]
    rw [if_pos hz1, if_pos hz2]
  · have hq0 : sqrtFn R.length ≠ 0 := fun h0 => hdq0 (by rw [h0, mul_zero])
    have hd0 : ((D1.length : ℚ)) ≠ 0 := fun h0 => hdq0 (by rw [h0, zero_mul])
    have hw1 : mulOf mentionedIdents s1 * sqrtFn R.length ≠ 0 :=
      mul_ne_zero (mulOf_ne_zero _ _) hq0
    have hw2 : mulOf mentionedIdents s2 * sqrtFn R.length ≠ 0 :=
      mul_ne_zero (mulOf_ne_zero _ _) hq0
    have hz1 : ((D1.length : ℚ)) * (mulOf mentionedIdents s1 * sqrtFn R.length) ≠ 0 :=
      mul_ne_zero hd0 hw1
    have hz2 : ((D2.length : ℚ)) * (mulOf mentionedIdents s2 * sqrtFn R.length) ≠ 0 := by
      rw [← hlen]; exact mul_ne_zero hd0 hw2
    rw [if_neg hz1, if_neg hz2, div_self_mul _ _ hw1, div_self_mul _ _ hw2, hcount,
      ← hlen]

/-- Witness for C3: `foo` (mentioned) and `bar` (not mentioned), both
defined in `d.go` and referenced once from `a.go`. -/
theorem distributeRank_mention_boost_witness :
    ((([("foo", ["a.go"]), ("bar", ["a.go"])] : List (String × List String)).map
        Prod.fst).Nodup)
    ∧ getQ (distributeRank (fun _ => 1) (fun _ => 1)
        [("foo", ["d.go"]), ("bar", ["d.go"])]
        [("foo", ["a.go"]), ("bar", ["a.go"])]
        (fun s => decide (s = "foo"))) ⟨"d.go", "foo"⟩ ≥
      getQ (distributeRank (fun _ => 1) (fun _ => 1)
        [("foo", ["d.go"]), ("bar", ["d.go"])]
        [("foo", ["a.go"]), ("bar", ["a.go"])]
        (fun s => decide (s = "foo"))) ⟨"d.go", "bar"⟩ :=
  ⟨by decide,
    distributeRank_mention_boost (fun _ => 1) (fun _ => 1)
      [("foo", ["d.go"]), ("bar", ["d.go"])]
      [("foo", ["a.go"]), ("bar", ["a.go"])]
      (fun s => decide (s = "foo"))
      "foo" "bar" ["a.go"] ["d.go"] ["d.go"] "d.go"
      (by decide) (by decide) (by decide) (by decide) (by decide)
      (List.Perm.refl _) (by decide) (by decide) (by decide)⟩

/-! ### File-graph construction (`buildFileGraph`, repomap.go) -/

/-- A weighted line (edge) of the multigraph built by `buildFileGraph`
(`g.NewWeightedLine(refNode, defNode, w)`); node identity is the relative
file name. -/
structure GEdge where
  src : String
  dst : String
  w : ℚ
deriving DecidableEq, Repr

/-- Insertion into the `fileSet` (a Go `map[string]struct{}`), kept as a
duplicate-free list in first-insertion order. -/
def insertNew (l : List String) (x : String) : List String :=
  if x ∈ l then l else l ++ [x]

/-- The `fileSet` of `buildFileGraph`: every filename appearing in the
values of `defines`, then every filename appearing in the values of
`references`. -/
def collectFiles (defines references : List (String × List String)) : List String :=
  references.foldl (fun acc p => p.2.foldl insertNew acc)
    (defines.foldl (fun acc p => p.2.foldl insertNew acc) [])

/-- Mirrors `buildFileGraph` (repomap.go): one graph node per file of the
`fileSet` (returned as the duplicate-free node list, which doubles as
`nodeByFile`), and, for every identifier whose defining set is non-empty,
a weighted edge referencing-file → defining-file per reference occurrence
with weight `mul · sqrt(len references[ident])`. -/
def buildFileGraph (sqrtFn : Nat → ℚ)
    (defines references : List (String × List String))
    (identifiers : List String) (mentionedIdents : String → Bool) :
    List String × List GEdge :=
  let fileSet := collectFiles defines references
  let edges := identifiers.foldl (fun acc ident =>
    let defFiles := (lookupL defines ident).getD []
    if defFiles.length = 0 then acc
    else
      let mul := mulOf mentionedIdents ident
      ((lookupL references ident).getD []).foldl (fun acc2 refFile =>
        let w := mul * sqrtFn ((lookupL references ident).getD []).length
        defFiles.foldl (fun acc3 defFile => acc3 ++ [⟨refFile, defFile, w⟩]) acc2) acc)
    []
  (fileSet, edges)

/-- Modelled from the spec (§4.4, Identifier weight): `μ(s)` is `10.0`
when `s` is mentioned, `0.1` when `s` begins with an underscore, and `1.0`
otherwise. -/
def specMu (mentioned : String → Bool) (s : String) : ℚ :=
  if mentioned s then 10 else if underscorePrefixed s then 1 / 10 else 1

/-- Modelled from the spec (§4.4, Edge weight): for each identifier `s` in
`identifiers`, for each referencing file `f_r ∈ R_s` (per occurrence) and
each defining file `f_d ∈ D_s`, one directed edge `f_r → f_d` with weight
`μ(s)·√|R_s|`. -/
def specEdges (sqrtFn : Nat → ℚ)
    (defines references : List (String × List String))
    (identifiers : List String) (mentioned : String → Bool) : List GEdge :=
  identifiers.flatMap (fun s =>
    let R := (lookupL references s).getD []
    let D := (lookupL defines s).getD []
    R.flatMap (fun fr =>
      D.map (fun fd => ⟨fr, fd, specMu mentioned s * sqrtFn R.length⟩)))

theorem mem_insertNew (l : List String) (x y : String) :
    y ∈ insertNew l x ↔ y ∈ l ∨ y = x := by
  unfold insertNew
  by_cases h : x ∈ l
  · simp only [h, if_true]
    constructor
    · exact Or.inl
    · rintro (hy | hy)
      · exact hy
      · exact hy ▸ h
  · simp [h]

theorem nodup_insertNew {l : List String} (h : l.Nodup) (x : String) :
    (insertNew l x).Nodup := by
  unfold insertNew
  by_cases hx : x ∈ l
  · simpa [hx]
  · simp [hx, List.nodup_append, h]

theorem mem_foldl_insertNew :
    ∀ (xs : List String) (acc : List String) (y : String),
      y ∈ xs.foldl insertNew acc ↔ y ∈ acc ∨ y ∈ xs
  | [], acc, y => by simp
  | x :: xs, acc, y => by
    simp only [List.foldl_cons]
    rw [mem_foldl_insertNew xs (insertNew acc x) y, mem_insertNew]
    simp only [List.mem_cons]
    constructor
    · rintro ((h | h) | h)
      · exact Or.inl h
      · exact Or.inr (Or.inl h)
      · exact Or.inr (Or.inr h)
    · rintro (h | (h | h))
      · exact Or.inl (Or.inl h)
      · exact Or.inl (Or.inr h)
      · exact Or.inr h

theorem nodup_foldl_insertNew :
    ∀ (xs : List String) {acc : List String}, acc.Nodup →
      (xs.foldl insertNew acc).Nodup
  | [], _, h => h
  | x :: xs, acc, h => by
    simp only [List.foldl_cons]
    exact nodup_foldl_insertNew xs (nodup_insertNew h x)

theorem mem_foldl_files :
    ∀ (ps : List (String × List String)) (acc : List String) (y : String),
      y ∈ ps.foldl (fun acc p => p.2.foldl insertNew acc) acc ↔
        y ∈ acc ∨ ∃ p ∈ ps, y ∈ p.2
  | [], acc, y => by simp
  | p :: ps, acc, y => by
    simp only [List.foldl_cons]
    rw [mem_foldl_files ps (p.2.foldl insertNew acc) y, mem_foldl_insertNew]
    simp only [List.mem_cons]
    constructor
    · rintro ((h | h) | ⟨q, hq, hy⟩)
      · exact Or.inl h
      · exact Or.inr ⟨p, Or.inl rfl, h⟩
      · exact Or.inr ⟨q, Or.inr hq, hy⟩
    · rintro (h | ⟨q, (hq | hq), hy⟩)
      · exact Or.inl (Or.inl h)
      · exact Or.inl (Or.inr (hq ▸ hy))
      · exact Or.inr ⟨q, hq, hy⟩

theorem nodup_foldl_files :
    ∀ (ps : List (String × List String)) {acc : List String}, acc.Nodup →
      (ps.foldl (fun acc p => p.2.foldl insertNew acc) acc).Nodup
  | [], _, h => h
  | p :: ps, acc, h => by
    simp only [List.foldl_cons]
    exact nodup_foldl_files ps (nodup_foldl_insertNew p.2 h)

theorem foldl_append_map {α β : Type} (f : α → β) :
    ∀ (l : List α) (acc : List β),
      l.foldl (fun a x => a ++ [f x]) acc = acc ++ l.map f
  | [], acc => by simp
  | x :: l, acc => by
    simp only [List.foldl_cons, List.map_cons]
    rw [foldl_append_map f l (acc ++ [f x])]
    simp

theorem foldl_append_flatMap {α β : Type} (g : α → List β) :
    ∀ (l : List α) (acc : List β),
      l.foldl (fun a x => a ++ g x) acc = acc ++ l.flatMap g
  | [], acc => by simp
  | x :: l, acc => by
    simp only [List.foldl_cons]
    rw [foldl_append_flatMap g l (acc ++ g x)]
    simp

/-- Claim C6: `buildFileGraph` creates exactly one node per file in the
union of the files appearing in `defines` and `references`, and its edge
list is exactly the spec's: for every identifier, one edge
referencer → definer per reference occurrence and defining file, with
weight `μ(s)·√|R_s|` (`μ` as in the spec's three cases). -/
theorem buildFileGraph_spec (sqrtFn : Nat → ℚ)
    (defines references : List (String × List String))
    (identifiers : List String) (mentionedIdents : String → Bool) :
    ((buildFileGraph sqrtFn defines references identifiers mentionedIdents).1.Nodup)
    ∧ (∀ f, f ∈ (buildFileGraph sqrtFn defines references identifiers mentionedIdents).1 ↔
        ((∃ p ∈ defines, f ∈ p.2) ∨ (∃ p ∈ references, f ∈ p.2)))
    ∧ (buildFileGraph sqrtFn defines references identifiers mentionedIdents).2 =
        specEdges sqrtFn defines references identifiers mentionedIdents := by
  refine ⟨?_, ?_, ?_⟩
  · exact nodup_foldl_files references (nodup_foldl_files defines List.nodup_nil)
  · intro f
    show f ∈ collectFiles defines references ↔ _
    unfold collectFiles
    rw [mem_foldl_files, mem_foldl_files]
    simp
  · show (identifiers.foldl _ []) = _
    suffices h : ∀ (ids : List String) (acc : List GEdge),
        (ids.foldl (fun acc ident =>
          let defFiles := (lookupL defines ident).getD []
          if defFiles.length = 0 then acc
          else
            let mul := mulOf mentionedIdents ident
            ((lookupL references ident).getD []).foldl (fun acc2 refFile =>
              let w := mul * sqrtFn ((lookupL references ident).getD []).length
              defFiles.foldl (fun acc3 defFile =>
                acc3 ++ [⟨refFile, defFile, w⟩]) acc2) acc) acc) =
          acc ++ specEdges sqrtFn defines references ids mentionedIdents by
      simpa using h identifiers []
    intro ids
    induction ids with
    | nil => intro acc; simp [specEdges]
    | cons ident ids ih =>
      intro acc
      simp only [List.foldl_cons]
      by_cases hd : ((lookupL defines ident).getD []).length = 0
      · have hdnil : (lookupL defines ident).getD [] = [] :=
          List.length_eq_zero.mp hd
        rw [if_pos hd, ih]
        simp [specEdges, hdnil]
      · rw [if_neg hd]
        have hinner :
            ((lookupL references ident).getD []).foldl (fun acc2 refFile =>
              ((lookupL defines ident).getD []).foldl (fun acc3 defFile =>
                acc3 ++ [⟨refFile, defFile,
                  mulOf mentionedIdents ident *
                    sqrtFn ((lookupL references ident).getD []).length⟩]) acc2) acc =
            acc ++ ((lookupL references ident).getD []).flatMap (fun fr =>
              ((lookupL defines ident).getD []).map (fun fd =>
                (⟨fr, fd, mulOf mentionedIdents ident *
                  sqrtFn ((lookupL references ident).getD []).length⟩ : GEdge))) := by
          have hmap : ∀ (fr : String) (acc2 : List GEdge),
              ((lookupL defines ident).getD []).foldl (fun acc3 defFile =>
                acc3 ++ [(⟨fr, defFile,
                  mulOf mentionedIdents ident *
                    sqrtFn ((lookupL references ident).getD []).length⟩ : GEdge)]) acc2 =
              acc2 ++ ((lookupL defines ident).getD []).map (fun fd =>
                (⟨fr, fd, mulOf mentionedIdents ident *
                  sqrtFn ((lookupL references ident).getD []).length⟩ : GEdge)) := by
            intro fr acc2
            exact foldl_append_map _ _ acc2
          calc ((lookupL references ident).getD []).foldl (fun acc2 refFile =>
                ((lookupL defines ident).getD []).foldl (fun acc3 defFile =>
                  acc3 ++ [⟨refFile, defFile,
                    mulOf mentionedIdents ident *
                      sqrtFn ((lookupL references ident).getD []).length⟩]) acc2) acc
              = ((lookupL references ident).getD []).foldl (fun acc2 refFile =>
                  acc2 ++ ((lookupL defines ident).getD []).map (fun fd =>
                    (⟨refFile, fd, mulOf mentionedIdents ident *
                      sqrtFn ((lookupL references ident).getD []).length⟩ : GEdge))) acc := by
                congr 1
                funext acc2 refFile
                exact hmap refFile acc2
            _ = acc ++ ((lookupL references ident).getD []).flatMap (fun fr =>
                  ((lookupL defines ident).getD []).map (fun fd =>
                    (⟨fr, fd, mulOf mentionedIdents ident *
                      sqrtFn ((lookupL references ident).getD []).length⟩ : GEdge))) :=
                foldl_append_flatMap _ _ acc
        rw [hinner, ih]
        have hspec : specEdges sqrtFn defines references (ident :: ids) mentionedIdents =
            ((lookupL references ident).getD []).flatMap (fun fr =>
              ((lookupL defines ident).getD []).map (fun fd =>
                (⟨fr, fd, specMu mentionedIdents ident *
                  sqrtFn ((lookupL references ident).getD []).length⟩ : GEdge))) ++
            specEdges sqrtFn defines references ids mentionedIdents := by
          simp [specEdges]
        rw [hspec]
        have hmu : specMu mentionedIdents ident = mulOf mentionedIdents ident := rfl
        rw [hmu, List.append_assoc]

/-! ### Ranked-definition sorting (`toDefRankSlice` and the `sort.Slice`
call in `getRankedTagsByPageRank`, repomap.go) -/

/-- Mirrors the Go struct `DefRank` (repomap.go). -/
structure DefRank where
  fname : String
  symbol : String
  rank : ℚ
deriving DecidableEq, Repr

/-- Mirrors `toDefRankSlice` (repomap.go): flatten the edge-rank map into
`DefRank` records (`fname := k.dst`, `symbol := k.symbol`). -/
def toDefRankSlice (edgeRanks : List (EdgeRank × ℚ)) : List DefRank :=
  edgeRanks.foldl (fun acc p => acc ++ [⟨p.1.dst, p.1.symbol, p.2⟩]) []

/-- The comparison closure passed to `sort.Slice` in
`getRankedTagsByPageRank`: rank descending, then file name ascending, then
symbol ascending (the Go code tests `!=` first; the branches are the
same). -/
def drLess (a b : DefRank) : Prop :=
  if a.rank = b.rank then
    (if a.fname = b.fname then a.symbol < b.symbol else a.fname < b.fname)
  else b.rank < a.rank

instance : DecidableRel drLess := fun a b => by
  unfold drLess
  infer_instance

/-- The non-strict companion of the comparator: `a` may precede `b`. -/
def drGE (a b : DefRank) : Prop := ¬ drLess b a

instance : DecidableRel drGE := fun a b => by
  unfold drGE
  infer_instance

theorem drLess_iff (a b : DefRank) :
    drLess a b ↔
      (b.rank < a.rank ∨ (a.rank = b.rank ∧
        (a.fname < b.fname ∨ (a.fname = b.fname ∧ a.symbol < b.symbol)))) := by
  unfold drLess
  by_cases h : a.rank = b.rank <;> by_cases hf : a.fname = b.fname <;>
    simp [h, hf]

theorem drLess_asymm {a b : DefRank} (h1 : drLess a b) (h2 : drLess b a) : False := by
  rw [drLess_iff] at h1 h2
  rcases h1 with h1 | ⟨h1r, h1⟩
  · rcases h2 with h2 | ⟨h2r, _⟩
    · exact lt_asymm h1 h2
    · exact absurd (h2r ▸ h1) (lt_irrefl _)
  · rcases h2 with h2 | ⟨_, h2⟩
    · exact absurd (h1r ▸ h2) (lt_irrefl _)
    · rcases h1 with h1 | ⟨h1f, h1⟩
      · rcases h2 with h2 | ⟨h2f, _⟩
        · exact lt_asymm h1 h2
        · exact absurd (h2f ▸ h1) (lt_irrefl _)
      · rcases h2 with h2 | ⟨_, h2⟩
        · exact absurd (h1f ▸ h2) (lt_irrefl _)
        · exact lt_asymm h1 h2

theorem drLess_trans {a b c : DefRank} (h1 : drLess a b) (h2 : drLess b c) :
    drLess a c := by
  rw [drLess_iff] at *
  rcases h1 with h1 | ⟨h1r, h1⟩
  · rcases h2 with h2 | ⟨h2r, _⟩
    · exact Or.inl (lt_trans h2 h1)
    · exact Or.inl (h2r ▸ h1)
  · rcases h2 with h2 | ⟨h2r, h2⟩
    · exact Or.inl (h1r ▸ h2)
    · refine Or.inr ⟨h1r.trans h2r, ?_⟩
      rcases h1 with h1 | ⟨h1f, h1⟩
      · rcases h2 with h2 | ⟨h2f, _⟩
        · exact Or.inl (lt_trans h1 h2)
        · exact Or.inl (h2f ▸ h1)
      · rcases h2 with h2 | ⟨h2f, h2⟩
        · exact Or.inl (h1f ▸ h2)
        · exact Or.inr ⟨h1f.trans h2f, lt_trans h1 h2⟩

theorem drLess_total (a b : DefRank) : a = b ∨ drLess a b ∨ drLess b a := by
  rcases lt_trichotomy a.rank b.rank with h | h | h
  · exact Or.inr (Or.inr ((drLess_iff b a).mpr (Or.inl h)))
  · rcases lt_trichotomy a.fname b.fname with hf | hf | hf
    · exact Or.inr (Or.inl ((drLess_iff a b).mpr (Or.inr ⟨h, Or.inl hf⟩)))
    · rcases lt_trichotomy a.symbol b.symbol with hs | hs | hs
      · exact Or.inr (Or.inl ((drLess_iff a b).mpr (Or.inr ⟨h, Or.inr ⟨hf, hs⟩⟩)))
      · left
        cases a; cases b
        simp_all
      · exact Or.inr (Or.inr ((drLess_iff b a).mpr
          (Or.inr ⟨h.symm, Or.inr ⟨hf.symm, hs⟩⟩)))
    · exact Or.inr (Or.inr ((drLess_iff b a).mpr (Or.inr ⟨h.symm, Or.inl hf⟩)))
  · exact Or.inr (Or.inl ((drLess_iff a b).mpr (Or.inl h)))

instance : IsTotal DefRank drGE :=
  ⟨fun a b => by
    unfold drGE
    by_cases h : drLess b a
    · exact Or.inr (fun h' => drLess_asymm h h')
    · exact Or.inl h⟩

instance : IsTrans DefRank drGE :=
  ⟨fun a b c h1 h2 hca => by
    unfold drGE at h1 h2
    rcases drLess_total b c with hbc | hbc | hbc
    · exact h1 (hbc ▸ hca)
    · rcases drLess_total a b with hab | hab | hab
      · exact h2 (hab ▸ hca)
      · exact h2 (drLess_trans hca hab)
      · exact h1 hab
    · exact h2 hbc⟩

instance : IsAntisymm DefRank drGE :=
  ⟨fun a b h1 h2 => by
    unfold drGE at h1 h2
    rcases drLess_total a b with h | h | h
    · exact h
    · exact absurd h h2
    · exact absurd h h1⟩

/-- Model of `sort.Slice(defRankSlice, less)`: Go guarantees the result is
a permutation of the input ordered by the comparator; since the comparator
totally orders `DefRank` records (incomparable records are equal), the
ordered permutation is unique and any sorting algorithm realises it. -/
def sortDefRanks (l : List DefRank) : List DefRank :=
  List.insertionSort drGE l

/-- Modelled from the spec (§4.5, Sorting): `rank` descending, ties broken
by `file` ascending, then `symbol` ascending. -/
def specOrdered (a b : DefRank) : Prop :=
  b.rank < a.rank ∨ (a.rank = b.rank ∧
    (a.fname < b.fname ∨ (a.fname = b.fname ∧ a.symbol ≤ b.symbol)))

theorem drGE_iff_specOrdered (a b : DefRank) : drGE a b ↔ specOrdered a b := by
  unfold drGE specOrdered
  rw [drLess_iff]
  push_neg
  constructor
  · rintro ⟨hle, himp⟩
    rcases eq_or_lt_of_le hle with heq | hlt
    · obtain ⟨hf, hfs⟩ := himp heq
      rcases lt_or_eq_of_le hf with hflt | hfeq
      · exact Or.inr ⟨heq.symm, Or.inl hflt⟩
      · exact Or.inr ⟨heq.symm, Or.inr ⟨hfeq, hfs hfeq.symm⟩⟩
    · exact Or.inl hlt
  · rintro (hlt | ⟨heq, hrest⟩)
    · refine ⟨le_of_lt hlt, ?_⟩
      intro habs
      exact absurd (habs ▸ hlt) (lt_irrefl _)
    · refine ⟨le_of_eq heq.symm, ?_⟩
      intro _
      rcases hrest with hflt | ⟨hfeq, hs⟩
      · refine ⟨le_of_lt hflt, ?_⟩
        intro habs
        exact absurd (habs ▸ hflt) (lt_irrefl _)
      · exact ⟨le_of_eq hfeq, fun _ => hs⟩

/-- Claim C7: the ranked definition list built from the edge-rank map and
sorted is a permutation of the slice, ordered by rank descending with ties
broken by file then symbol ascending; and the ordering is stable — any
permutation so ordered equals it, the comparator being antisymmetric on
whole records. -/
theorem sortDefRanks_spec (edgeRanks : List (EdgeRank × ℚ)) :
    (sortDefRanks (toDefRankSlice edgeRanks)).Perm (toDefRankSlice edgeRanks)
    ∧ (sortDefRanks (toDefRankSlice edgeRanks)).Pairwise specOrdered
    ∧ ∀ l', l'.Perm (toDefRankSlice edgeRanks) → l'.Pairwise specOrdered →
        l' = sortDefRanks (toDefRankSlice edgeRanks) := by
  have hperm : (sortDefRanks (toDefRankSlice edgeRanks)).Perm
      (toDefRankSlice edgeRanks) := List.perm_insertionSort _ _
  have hsorted : List.Sorted drGE (sortDefRanks (toDefRankSlice edgeRanks)) :=
    List.sorted_insertionSort _ _
  refine ⟨hperm, ?_, ?_⟩
  · exact hsorted.imp (fun h => (drGE_iff_specOrdered _ _).mp h)
  · intro l' hp hs
    have hs' : List.Sorted drGE l' :=
      hs.imp (fun h => (drGE_iff_specOrdered _ _).mpr h)
    exact List.eq_of_perm_of_sorted (hp.trans hperm.symm) hs' hsorted

/-- Witness for C7: the theorem applied to a concrete two-entry edge-rank
map. -/
theorem sortDefRanks_spec_witness :
    (sortDefRanks (toDefRankSlice [(⟨"b.go", "x"⟩, 1), (⟨"a.go", "y"⟩, 1)])).Perm
      (toDefRankSlice [(⟨"b.go", "x"⟩, 1), (⟨"a.go", "y"⟩, 1)])
    ∧ (sortDefRanks (toDefRankSlice
        [(⟨"b.go", "x"⟩, 1), (⟨"a.go", "y"⟩, 1)])).Pairwise specOrdered
    ∧ ∀ l', l'.Perm (toDefRankSlice [(⟨"b.go", "x"⟩, 1), (⟨"a.go", "y"⟩, 1)]) →
        l'.Pairwise specOrdered →
        l' = sortDefRanks (toDefRankSlice [(⟨"b.go", "x"⟩, 1), (⟨"a.go", "y"⟩, 1)]) :=
  sortDefRanks_spec [(⟨"b.go", "x"⟩, 1), (⟨"a.go", "y"⟩, 1)]

/-! ### Outline assembly (`toTree`, repomap.go)

`os.ReadFile` is modelled by an oracle `readFileOr : String → Option String`
(`none` = read error) and `renderTree` by an oracle
`render : String → String → List Nat → String` (its error case produces the
empty snippet in the source, which the oracle can realise). -/

/-- `strings.Split(s, "\n")` on character lists. -/
def splitNl : List Char → List (List Char)
  | [] => [[]]
  | c :: rest =>
    match splitNl rest with
    | [] => [[]]
    | l :: ls => if c = '\n' then [] :: l :: ls else (c :: l) :: ls

/-- `strings.Join(lines, "\n")` on character lists. -/
def joinNl : List (List Char) → List Char
  | [] => []
  | [l] => l
  | l :: ls => l ++ '\n' :: joinNl ls

/-- The sentinel file name used by `toTree` to trigger the final flush. -/
def sentinel : String := "__sentinel_tag__"

/-- The comparator of the `sort.Slice` call in `toTree`: file name
ascending, then line ascending. -/
def tagLess (a b : Tag) : Prop :=
  if a.FileName = b.FileName then a.Line < b.Line
  else a.FileName < b.FileName

instance : DecidableRel tagLess := fun a b => by
  unfold tagLess
  infer_instance

/-- The non-strict companion of `tagLess`. -/
def tagGE (a b : Tag) : Prop := ¬ tagLess b a

instance : DecidableRel tagGE := fun a b => by
  unfold tagGE
  infer_instance

/-- Model of the `sort.Slice(tags, ...)` call in `toTree`. -/
def sortTags (l : List Tag) : List Tag :=
  List.insertionSort tagGE l

/-- The mutable state of the `toTree` streaming loop. -/
structure ToTreeState where
  curFname : String
  curAbsFname : String
  linesOfInterest : Option (List Nat)
  output : String

/-- The `toTree` streaming loop over the sorted tags (sentinel appended).
`none` for `linesOfInterest` models the nil Go slice; the `continue` on a
read failure and the `break` on the sentinel are realised by the recursion
shape. -/
def toTreeLoop (readFileOr : String → Option String)
    (render : String → String → List Nat → String) :
    List Tag → ToTreeState → ToTreeState
  | [], st => st
  | t :: ts, st =>
    if t.FileName = st.curFname then
      let st1 :=
        match st.linesOfInterest with
        | none => st
        | some loi => { st with linesOfInterest := some (loi ++ [t.Line]) }
      toTreeLoop readFileOr render ts st1
    else
      if st.curFname ≠ "" ∧ st.linesOfInterest ≠ none then
        let out1 := st.output ++ "\n" ++ st.curFname ++ ":\n"
        match readFileOr st.curAbsFname with
        | none =>
          toTreeLoop readFileOr render ts { st with output := out1 }
        | some code =>
          let out2 := out1 ++ render st.curFname code (st.linesOfInterest.getD [])
          if t.FileName = sentinel then { st with output := out2 }
          else
            toTreeLoop readFileOr render ts
              { curFname := t.FileName, curAbsFname := t.FilePath,
                linesOfInterest := some [t.Line], output := out2 }
      else
        if t.FileName = sentinel then st
        else
          toTreeLoop readFileOr render ts
            { curFname := t.FileName, curAbsFname := t.FilePath,
              linesOfInterest := some [t.Line], output := st.output }

/-- Mirrors `toTree` (repomap.go): return `""` on an empty tag list, else
sort by (file, line), append the sentinel tag, stream-group into per-file
blocks, then truncate every line of the output to 100 characters and join
with a trailing newline.  `chatRelSet` is computed by the source but the
skip that would consult it is commented out there, so it is retained
unused. -/
def toTree (readFileOr : String → Option String)
    (render : String → String → List Nat → String)
    (relFn : String → String)
    (tags : List Tag) (chatFnames : List String) : String :=
  if tags.isEmpty then ""
  else
    let _chatRelSet := chatFnames.map relFn
    let sorted := sortTags tags
    let withSentinel := sorted ++ [⟨sentinel, "", 0, sentinel, ""⟩]
    let final := toTreeLoop readFileOr render withSentinel ⟨"", "", none, ""⟩
    let lines := splitNl final.output.data
    let truncated := lines.map (fun ln => ln.take 100)
    String.mk (joinNl truncated ++ ['\n'])

theorem splitNl_ne_nil (s : List Char) : splitNl s ≠ [] := by
  cases s with
  | nil => simp [splitNl]
  | cons c rest =>
    unfold splitNl
    cases splitNl rest with
    | nil => simp
    | cons l ls => by_cases h : c = '\n' <;> simp [h]

theorem not_newline_mem_splitNl (s : List Char) :
    ∀ l ∈ splitNl s, '\n' ∉ l := by
  induction s with
  | nil =>
    intro l hl
    simp [splitNl] at hl
    simp [hl]
  | cons c rest ih =>
    intro l hl
    unfold splitNl at hl
    cases hr : splitNl rest with
    | nil => exact absurd hr (splitNl_ne_nil rest)
    | cons l0 ls =>
      rw [hr] at hl
      by_cases h : c = '\n'
      · simp only [h, if_true, List.mem_cons] at hl
        rcases hl with hl | hl | hl
        · simp [hl]
        · exact hl ▸ ih l0 (hr ▸ List.mem_cons_self _ _)
        · exact ih l (hr ▸ List.mem_cons_of_mem _ hl)
      · simp only [h, if_false, List.mem_cons] at hl
        rcases hl with hl | hl
        · subst hl
          intro hmem
          rcases List.mem_cons.mp hmem with hc | hc
          · exact h hc.symm
          · exact ih l0 (hr ▸ List.mem_cons_self _ _) hc
        · exact ih l (hr ▸ List.mem_cons_of_mem _ hl)

theorem joinNl_concat_nil : ∀ (ls : List (List Char)), ls ≠ [] →
    joinNl (ls ++ [[]]) = joinNl ls ++ ['\n']
  | [], h => absurd rfl h
  | [l], _ => by simp [joinNl]
  | l :: l2 :: ls, _ => by
    have ih := joinNl_concat_nil (l2 :: ls) (by simp)
    simp only [List.cons_append]
    show l ++ '\n' :: joinNl ((l2 :: ls) ++ [[]]) = (l ++ '\n' :: joinNl (l2 :: ls)) ++ ['\n']
    rw [ih]
    simp

theorem splitNl_of_no_newline : ∀ (l : List Char), '\n' ∉ l → splitNl l = [l]
  | [], _ => rfl
  | c :: l', h => by
    have hc : ¬ c = '\n' := fun hc => h (hc ▸ List.mem_cons_self _ _)
    have ih := splitNl_of_no_newline l' (fun hm => h (List.mem_cons_of_mem _ hm))
    unfold splitNl
    rw [ih]
    simp [hc]

theorem splitNl_cons (c : Char) (rest : List Char) :
    splitNl (c :: rest) =
      match splitNl rest with
      | [] => [[]]
      | l :: ls => if c = '\n' then [] :: l :: ls else (c :: l) :: ls := rfl

theorem splitNl_append_newline (rest : List Char) :
    ∀ (l : List Char), '\n' ∉ l → splitNl (l ++ '\n' :: rest) = l :: splitNl rest
  | [], _ => by
    show splitNl ('\n' :: rest) = [] :: splitNl rest
    rw [splitNl_cons]
    cases hr : splitNl rest with
    | nil => exact absurd hr (splitNl_ne_nil rest)
    | cons l0 ls => simp
  | c :: l', h => by
    have hc : ¬ c = '\n' := fun hc => h (hc ▸ List.mem_cons_self _ _)
    have ih := splitNl_append_newline rest l' (fun hm => h (List.mem_cons_of_mem _ hm))
    show splitNl (c :: (l' ++ '\n' :: rest)) = (c :: l') :: splitNl rest
    rw [splitNl_cons, ih]
    simp [hc]

theorem splitNl_joinNl : ∀ (ls : List (List Char)), ls ≠ [] →
    (∀ l ∈ ls, '\n' ∉ l) → splitNl (joinNl ls) = ls
  | [], h, _ => absurd rfl h
  | [l], _, hnl => by
    show splitNl l = [l]
    exact splitNl_of_no_newline l (hnl l (List.mem_singleton_self _))
  | l :: l2 :: ls, _, hnl => by
    have ih := splitNl_joinNl (l2 :: ls) (by simp)
      (fun q hq => hnl q (List.mem_cons_of_mem _ hq))
    show splitNl (l ++ '\n' :: joinNl (l2 :: ls)) = l :: l2 :: ls
    rw [splitNl_append_newline _ l (hnl l (List.mem_cons_self _ _)), ih]

/-- Claim C8: for every non-empty input tag list, no line of the string
returned by `toTree` exceeds 100 characters, and the returned string ends
with a trailing newline. -/
theorem toTree_line_bound (readFileOr : String → Option String)
    (render : String → String → List Nat → String) (relFn : String → String)
    (tags : List Tag) (chatFnames : List String) (htags : tags ≠ []) :
    (∀ l ∈ splitNl (toTree readFileOr render relFn tags chatFnames).data,
        l.length ≤ 100)
    ∧ (toTree readFileOr render relFn tags chatFnames).data.getLast? = some '\n' := by
  have hne : tags.isEmpty = false := by
    cases tags with
    | nil => exact absurd rfl htags
    | cons t ts => rfl
  unfold toTree
  rw [hne]
  simp only [Bool.false_eq_true, if_false]
  set out := (toTreeLoop readFileOr render
    (sortTags tags ++ [⟨sentinel, "", 0, sentinel, ""⟩]) ⟨"", "", none, ""⟩).output with hout
  set truncated := (splitNl out.data).map (fun ln => ln.take 100) with htr
  have htrne : truncated ≠ [] := by
    rw [htr]
    intro habs
    exact splitNl_ne_nil out.data (List.map_eq_nil_iff.mp habs)
  have hnonl : ∀ l ∈ truncated ++ [[]], '\n' ∉ l := by
    intro l hl
    rcases List.mem_append.mp hl with hl | hl
    · rw [htr] at hl
      rcases List.mem_map.mp hl with ⟨l0, hl0, hl0e⟩
      intro hmem
      exact not_newline_mem_splitNl out.data l0 hl0
        (List.take_subset _ _ (hl0e ▸ hmem))
    · simp at hl
      simp [hl]
  have hsplit : splitNl (joinNl truncated ++ ['\n']) = truncated ++ [[]] := by
    rw [← joinNl_concat_nil truncated htrne]
    exact splitNl_joinNl (truncated ++ [[]]) (by simp) hnonl
  constructor
  · intro l hl
    rw [hsplit] at hl
    rcases List.mem_append.mp hl with hl | hl
    · rw [htr] at hl
      rcases List.mem_map.mp hl with ⟨l0, _, hl0e⟩
      rw [← hl0e]
      exact List.length_take_le _ _
    · simp at hl
      simp [hl]
  · exact List.getLast?_concat _

/-- Witness for C8: a single concrete tag with concrete oracles. -/
theorem toTree_line_bound_witness :
    ([Tag.mk "a.go" "a.go" 0 "foo" "def"] ≠ ([] : List Tag))
    ∧ ((∀ l ∈ splitNl (toTree (fun _ => none) (fun _ _ _ => "") id
          [Tag.mk "a.go" "a.go" 0 "foo" "def"] []).data, l.length ≤ 100)
       ∧ (toTree (fun _ => none) (fun _ _ _ => "") id
          [Tag.mk "a.go" "a.go" 0 "foo" "def"] []).data.getLast? = some '\n') :=
  ⟨by decide,
    toTree_line_bound (fun _ => none) (fun _ _ _ => "") id
      [Tag.mk "a.go" "a.go" 0 "foo" "def"] [] (by decide)⟩

/-! ### The ranked-tag pipeline and top-level generation
(`getRankedTagsByPageRank`, `GetRankedTagsMap`, `GenerateRepoMap`,
repomap.go; `uniqueElements`, internals.go) -/

/-- Mirrors `uniqueElements` (internals.go): concatenate the slices,
keeping the first occurrence of each element (the Go code tracks seen
elements in a set; membership in the result list is equivalent). -/
def uniqueElements (slices : List (List String)) : List String :=
  slices.flatten.foldl (fun acc e => if e ∈ acc then acc else acc ++ [e]) []

/-- Mirrors `getTagsFromFiles` (repomap.go): collect the tags of every
file.  `tagsOf fname rel` is the oracle for `GetFileTags` (tree-sitter
extraction with the short-name/common-word filter applied); `none` models
an extraction error, which the source logs and skips. -/
def getTagsFromFiles (tagsOf : String → String → Option (List Tag))
    (relFn : String → String) (allFnames : List String) : List Tag :=
  allFnames.foldl (fun acc fname =>
    match tagsOf fname (relFn fname) with
    | none => acc
    | some tg => acc ++ tg) []

/-- The personalization vector computed by `getRankedTagsByPageRank`
(repomap.go): `100/N` for files of the mentioned set, `1/N` otherwise.
The source computes it and then calls the unpersonalized
`network.PageRank`, discarding it; it is defined here and left unconsumed,
mirroring the source. -/
def personalization (fileSet : List String) (mentionedFnames : List String) :
    List (String × ℚ) :=
  fileSet.map (fun f =>
    if mentionedFnames.contains f then (f, 100 / (fileSet.length : ℚ))
    else (f, 1 / (fileSet.length : ℚ)))

/-- Mirrors `getRankedTagsByPageRank` (repomap.go).  `pageRankFn` is the
oracle for `network.PageRank(g, 0.85, 1e-6)`: given the nodes and weighted
lines of the file graph it yields each file's score.  The `chatRelFnames`
set is created empty by the source (the loop that would fill it from chat
files is commented out there), so the skip in the final gathering loop
never fires. -/
def getRankedTagsByPageRank (sqrtFn : Nat → ℚ)
    (pageRankFn : List String → List GEdge → String → ℚ)
    (relFn : String → String) (allTags : List Tag)
    (mentionedFnames mentionedIdents : List String) : List Tag :=
  let maps := buildReferenceMaps relFn allTags
  let graph := buildFileGraph sqrtFn maps.defines maps.references maps.identifiers
    (fun s => mentionedIdents.contains s)
  let _personal := personalization graph.1 mentionedFnames
  let pr := pageRankFn graph.1 graph.2
  let edgeRanks := distributeRank sqrtFn pr maps.defines maps.references
    (fun s => mentionedIdents.contains s)
  let defRankSlice := sortDefRanks (toDefRankSlice edgeRanks)
  let chatRelFnames : List String := []
  defRankSlice.foldl (fun acc dr =>
    if chatRelFnames.contains dr.fname then acc
    else acc ++ ((lookupL maps.definitions ⟨dr.fname, dr.symbol⟩).getD [])) []

/-- Mirrors the configuration and result fields of the Go struct `RepoMap`
(repomap.go).  `MainModel` is an empty stub struct and is represented by
the `modelTokenCount` function below; `MapProcessingTime` (float seconds)
is a rational. -/
structure RepoMap where
  Refresh : String
  Verbose : Bool
  Root : String
  RepoContentPx : String
  MaxMapTokens : Int
  MaxCtxWindow : Int
  MapMulNoFiles : Int
  MapProcessingTime : ℚ
  LastMap : String
deriving DecidableEq, Repr

/-- Mirrors `ModelStub.TokenCount` (repomap.go): `len(text) / 4` with Go
integer division.  `String.length` counts characters, which coincides with
Go's byte count on the ASCII strings evaluated here. -/
def modelTokenCount (text : String) : Nat := text.length / 4

/-- `strings.SplitAfter(s, "\n")` on character lists (separators kept). -/
def splitAfterNl : List Char → List (List Char)
  | [] => [[]]
  | c :: rest =>
    match splitAfterNl rest with
    | [] => [[c]]
    | l :: ls => if c = '\n' then [c] :: l :: ls else (c :: l) :: ls

/-- The sampling loop of `RepoMap.TokenCount`
(`for i := 0; i < numLines; i += step`). -/
def everyNth {α : Type} (ls : List α) (step : Nat) : List α :=
  (List.range ls.length).filterMap (fun i =>
    if i % step = 0 then ls[i]? else none)

/-- Mirrors `RepoMap.TokenCount` (repomap.go): texts under 200 characters
are counted directly by the model stub; longer texts are sampled every
`numLines/100`-th line and the sample count is scaled by total length over
sample length. -/
def TokenCount (text : String) : ℚ :=
  if text.length < 200 then (modelTokenCount text : ℚ)
  else
    let lines := splitAfterNl text.data
    let numLines := lines.length
    let step := if numLines / 100 < 1 then 1 else numLines / 100
    let sampleText : String := String.mk ((everyNth lines step).flatten)
    let sampleTokens : ℚ := (modelTokenCount sampleText : ℚ)
    let ratio := sampleTokens / (sampleText.length : ℚ)
    ratio * (text.length : ℚ)

/-- Mirrors `GetRankedTagsMap` (repomap.go).  The budget binary search is
commented out in the source: `ub` and `middle` are computed but unused,
`bestTree` is `toTree` of all final tags, and the `maxMapTokens` parameter
is never consulted.  `elapsed` models the wall-clock duration the source
stores in `MapProcessingTime`. -/
def GetRankedTagsMap (sqrtFn : Nat → ℚ)
    (pageRankFn : List String → List GEdge → String → ℚ)
    (relFn : String → String)
    (tagsOf : String → String → Option (List Tag))
    (readFileOr : String → Option String)
    (render : String → String → List Nat → String)
    (r : RepoMap) (chatFnames otherFnames : List String)
    (maxMapTokens : Int) (mentionedFnames mentionedIdents : List String)
    (forceRefresh : Bool) (elapsed : ℚ) : RepoMap × String :=
  let allFnames := uniqueElements [chatFnames, otherFnames]
  let allTags := getTagsFromFiles tagsOf relFn allFnames
  if allTags.length = 0 then (r, "")
  else
    let rankedTags := getRankedTagsByPageRank sqrtFn pageRankFn relFn allTags
      mentionedFnames mentionedIdents
    let finalTags := rankedTags
    let _ub := finalTags.length
    let _middle := if finalTags.length > 30 then 30 else finalTags.length
    let bestTree := toTree readFileOr render relFn finalTags chatFnames
    ({ r with MapProcessingTime := elapsed, LastMap := bestTree }, bestTree)

/-- `strings.ReplaceAll` on character lists (left-to-right, non-empty
pattern; an empty pattern never occurs in the source's use). -/
def replaceAllChars (pat rep : List Char) : List Char → List Char
  | [] => []
  | c :: rest =>
    if pat ≠ [] ∧ pat.isPrefixOf (c :: rest) then
      rep ++ replaceAllChars pat rep (rest.drop (pat.length - 1))
    else c :: replaceAllChars pat rep rest
termination_by l => l.length
decreasing_by
  · simp [List.length_drop]
    omega
  · simp

/-- `strings.ReplaceAll` (used for the `{other}` placeholder of the
content prefix). -/
def replaceAll (s pat rep : String) : String :=
  String.mk (replaceAllChars pat.data rep.data s.data)

/-- Mirrors `GenerateRepoMap` (repomap.go): budget guard, effective-budget
computation, ranked-map generation, then the optional content prefix with
`{other}` expanded. -/
def GenerateRepoMap (sqrtFn : Nat → ℚ)
    (pageRankFn : List String → List GEdge → String → ℚ)
    (relFn : String → String)
    (tagsOf : String → String → Option (List Tag))
    (readFileOr : String → Option String)
    (render : String → String → List Nat → String)
    (r : RepoMap) (chatFiles otherFiles : List String)
    (mentionedFnames mentionedIdents : List String)
    (forceRefresh : Bool) (elapsed : ℚ) : RepoMap × String :=
  if r.MaxMapTokens ≤ 0 then (r, "")
  else
    let maxMapTokens := r.MaxMapTokens
    let padding : Int := 4096
    let target : Int :=
      if maxMapTokens > 0 ∧ r.MaxCtxWindow > 0 then
        let t := maxMapTokens * r.MapMulNoFiles
        let t2 := if r.MaxCtxWindow - padding < 0 then 0 else r.MaxCtxWindow - padding
        if t < t2 then t else t2
      else 0
    let maxMapTokens :=
      if chatFiles.length = 0 ∧ r.MaxCtxWindow > 0 ∧ target > 0 then target
      else maxMapTokens
    let res := GetRankedTagsMap sqrtFn pageRankFn relFn tagsOf readFileOr render
      r chatFiles otherFiles maxMapTokens mentionedFnames mentionedIdents
      forceRefresh elapsed
    if res.2 = "" then (res.1, "")
    else
      let other := if chatFiles.length > 0 then "other " else ""
      let repoContent :=
        if r.RepoContentPx ≠ "" then replaceAll r.RepoContentPx "{other}" other
        else ""
      (res.1, repoContent ++ res.2)

/-- Claim C9: with a non-positive `MaxMapTokens` budget the top-level
generation returns the empty outline; its return type carries no error
value, so no error can be signalled. -/
theorem generateRepoMap_budget_guard (sqrtFn : Nat → ℚ)
    (pageRankFn : List String → List GEdge → String → ℚ)
    (relFn : String → String)
    (tagsOf : String → String → Option (List Tag))
    (readFileOr : String → Option String)
    (render : String → String → List Nat → String)
    (r : RepoMap) (chatFiles otherFiles : List String)
    (mentionedFnames mentionedIdents : List String)
    (forceRefresh : Bool) (elapsed : ℚ)
    (h : r.MaxMapTokens ≤ 0) :
    (GenerateRepoMap sqrtFn pageRankFn relFn tagsOf readFileOr render
      r chatFiles otherFiles mentionedFnames mentionedIdents
      forceRefresh elapsed).2 = "" := by
  unfold GenerateRepoMap
  rw [if_pos h]

/-- Witness for C9: a concrete zero-budget configuration. -/
theorem generateRepoMap_budget_guard_witness :
    ((RepoMap.mk "auto" false "." "" 0 16000 8 0 "").MaxMapTokens ≤ 0)
    ∧ (GenerateRepoMap (fun _ => 1) (fun _ _ _ => 1) id (fun _ _ => none)
        (fun _ => none) (fun _ _ _ => "")
        (RepoMap.mk "auto" false "." "" 0 16000 8 0 "") [] [] [] [] false 0).2 = "" :=
  ⟨by decide,
    generateRepoMap_budget_guard (fun _ => 1) (fun _ _ _ => 1) id (fun _ _ => none)
      (fun _ => none) (fun _ _ _ => "")
      (RepoMap.mk "auto" false "." "" 0 16000 8 0 "") [] [] [] [] false 0 (by decide)⟩

/-- Claim C10 (frame): `GetRankedTagsMap` leaves every configuration field
of its receiver unchanged — `Root`, `MaxMapTokens`, `MaxCtxWindow`,
`MapMulNoFiles`, `RepoContentPx`, `Refresh` and `Verbose` are the same
after the call as before; only `MapProcessingTime` and `LastMap` are
written. -/
theorem getRankedTagsMap_frame (sqrtFn : Nat → ℚ)
    (pageRankFn : List String → List GEdge → String → ℚ)
    (relFn : String → String)
    (tagsOf : String → String → Option (List Tag))
    (readFileOr : String → Option String)
    (render : String → String → List Nat → String)
    (r : RepoMap) (chatFnames otherFnames : List String)
    (maxMapTokens : Int) (mentionedFnames mentionedIdents : List String)
    (forceRefresh : Bool) (elapsed : ℚ) :
    ((GetRankedTagsMap sqrtFn pageRankFn relFn tagsOf readFileOr render
        r chatFnames otherFnames maxMapTokens mentionedFnames mentionedIdents
        forceRefresh elapsed).1.Root = r.Root)
    ∧ ((GetRankedTagsMap sqrtFn pageRankFn relFn tagsOf readFileOr render
        r chatFnames otherFnames maxMapTokens mentionedFnames mentionedIdents
        forceRefresh elapsed).1.MaxMapTokens = r.MaxMapTokens)
    ∧ ((GetRankedTagsMap sqrtFn pageRankFn relFn tagsOf readFileOr render
        r chatFnames otherFnames maxMapTokens mentionedFnames mentionedIdents
        forceRefresh elapsed).1.MaxCtxWindow = r.MaxCtxWindow)
    ∧ ((GetRankedTagsMap sqrtFn pageRankFn relFn tagsOf readFileOr render
        r chatFnames otherFnames maxMapTokens mentionedFnames mentionedIdents
        forceRefresh elapsed).1.MapMulNoFiles = r.MapMulNoFiles)
    ∧ ((GetRankedTagsMap sqrtFn pageRankFn relFn tagsOf readFileOr render
        r chatFnames otherFnames maxMapTokens mentionedFnames mentionedIdents
        forceRefresh elapsed).1.RepoContentPx = r.RepoContentPx)
    ∧ ((GetRankedTagsMap sqrtFn pageRankFn relFn tagsOf readFileOr render
        r chatFnames otherFnames maxMapTokens mentionedFnames mentionedIdents
        forceRefresh elapsed).1.Refresh = r.Refresh)
    ∧ ((GetRankedTagsMap sqrtFn pageRankFn relFn tagsOf readFileOr render
        r chatFnames otherFnames maxMapTokens mentionedFnames mentionedIdents
        forceRefresh elapsed).1.Verbose = r.Verbose) := by
  unfold GetRankedTagsMap
  by_cases h : (getTagsFromFiles tagsOf relFn
      (uniqueElements [chatFnames, otherFnames])).length = 0 <;>
    simp [h]

/-! ### Concrete evaluations for the two dead-code findings -/

/-- Substring test (`strings.Contains`) on character lists. -/
def containsSub (needle : List Char) : List Char → Bool
  | [] => needle.isEmpty
  | c :: rest => needle.isPrefixOf (c :: rest) || containsSub needle rest

/-- Claim C1 (code bug): the budget binary search of the outline assembler
is commented out in the source.  `GetRankedTagsMap` never consults its
token-budget parameter — the outline is identical for every budget — and
on the concrete single-definition input below, with budget `B = 1`, the
returned outline has estimated tokens `2 > B · 1.15`. -/
theorem getRankedTagsMap_budget_violated :
    (∀ B B' : Int,
      (GetRankedTagsMap (fun _ => 1) (fun _ _ _ => 1) id
        (fun f _ => if f = "big.go" then
          some [Tag.mk "big.go" "big.go" 2 "foo" "def"] else none)
        (fun _ => some "x") (fun _ _ _ => "")
        (RepoMap.mk "auto" false "." "" 1 0 0 0 "") [] ["big.go"] B [] [] false 0).2 =
      (GetRankedTagsMap (fun _ => 1) (fun _ _ _ => 1) id
        (fun f _ => if f = "big.go" then
          some [Tag.mk "big.go" "big.go" 2 "foo" "def"] else none)
        (fun _ => some "x") (fun _ _ _ => "")
        (RepoMap.mk "auto" false "." "" 1 0 0 0 "") [] ["big.go"] B' [] [] false 0).2)
    ∧ TokenCount ((GetRankedTagsMap (fun _ => 1) (fun _ _ _ => 1) id
        (fun f _ => if f = "big.go" then
          some [Tag.mk "big.go" "big.go" 2 "foo" "def"] else none)
        (fun _ => some "x") (fun _ _ _ => "")
        (RepoMap.mk "auto" false "." "" 1 0 0 0 "") [] ["big.go"] 1 [] [] false 0).2) >
      (115 / 100 : ℚ) * 1 := by
  constructor
  · intro B B'
    rfl
  · have hout : (GetRankedTagsMap (fun _ => 1) (fun _ _ _ => 1) id
        (fun f _ => if f = "big.go" then
          some [Tag.mk "big.go" "big.go" 2 "foo" "def"] else none)
        (fun _ => some "x") (fun _ _ _ => "")
        (RepoMap.mk "auto" false "." "" 1 0 0 0 "") [] ["big.go"] 1 [] [] false 0).2 =
        "\nbig.go:\n\n" := by
      norm_num [GetRankedTagsMap, uniqueElements, getTagsFromFiles,
        getRankedTagsByPageRank, buildReferenceMaps, ingestTags, ingestStep,
        addDef, addDefinition, fallbackFromDefines, addRef, lookupL,
        buildFileGraph, collectFiles, insertNew, mulOf, underscorePrefixed,
        distributeRank, symStep, refStep, addPortion, bump, toDefRankSlice,
        sortDefRanks, personalization, toTree, sortTags, toTreeLoop, sentinel,
        splitNl, joinNl, TagKindDef, TagKindRef, drGE, drLess, tagGE, tagLess]
    rw [hout]
    have hlen : ("\nbig.go:\n\n" : String).length = 10 := rfl
    norm_num [TokenCount, modelTokenCount, hlen]

/-- Claim C2 (code bug): the chat-file skip is dead code in the source —
`chatRelFnames` is never populated in `getRankedTagsByPageRank` (the loop
that would fill it is commented out) and the per-tag skip in `toTree` is
commented out as well — so a chat file's definitions do appear as a file
block of the outline.  Concretely, with `x.go` in the chat set and
carrying the only (top-ranked) definition, the outline consists exactly of
the `x.go` block. -/
theorem chat_file_not_skipped :
    (GetRankedTagsMap (fun _ => 1) (fun _ _ _ => 1) id
      (fun f _ => if f = "x.go" then
        some [Tag.mk "x.go" "x.go" 2 "foo" "def"] else none)
      (fun _ => some "package x") (fun _ _ _ => "")
      (RepoMap.mk "auto" false "." "" 1024 0 0 0 "") ["x.go"] [] 1024
      ["x.go"] [] false 0).2 = "\nx.go:\n\n"
    ∧ containsSub "x.go:".data
        ("\nx.go:\n\n" : String).data = true := by
  constructor
  · norm_num [GetRankedTagsMap, uniqueElements, getTagsFromFiles,
      getRankedTagsByPageRank, buildReferenceMaps, ingestTags, ingestStep,
      addDef, addDefinition, fallbackFromDefines, addRef, lookupL,
      buildFileGraph, collectFiles, insertNew, mulOf, underscorePrefixed,
      distributeRank, symStep, refStep, addPortion, bump, toDefRankSlice,
      sortDefRanks, personalization, toTree, sortTags, toTreeLoop, sentinel,
      splitNl, joinNl, TagKindDef, TagKindRef, drGE, drLess, tagGE, tagLess]
  · decide

end Germ
